import Mathlib

/-!
Verification of the triangle-free graph search scripts.

The repository enumerates small labeled triangle-free graphs and filters
graph collections by combinatorial properties: the witness property `Ψ_k`
(`check_properties` in `find_triangle_free.py`), the "Corollary 4" battery
(`check_corollary_4_properties` in `generate_with_nauty.py`: common
neighbors of small independent sets, twin-freeness, exclusion of the
Andrásfai reference family), and a parallel slice manager
(`run_manager.py`) driving an external candidate generator.

Graphs live on the dense vertex set `{0, …, n-1}`.  A graph is a vertex
count together with a finite set of (ordered representations of) edges;
`has_edge` is symmetric, matching the networkx adjacency queries used by
the scripts.
-/

/-- A labeled graph: vertices `0, …, n-1` and a finite set of edge pairs.
Generated graphs keep every pair normalized as `(u, v)` with `u < v`
(the `wf` predicate below); `has_edge` is symmetric regardless. -/
structure Graph where
  n : Nat
  edges : Finset (Nat × Nat)
deriving DecidableEq

/-- networkx `G.has_edge(u, v)`: adjacency is symmetric. -/
def Graph.has_edge (G : Graph) (u v : Nat) : Bool :=
  decide ((u, v) ∈ G.edges ∨ (v, u) ∈ G.edges)

/-- networkx `G.neighbors(v)` as a finite set: all endpoints paired with
`v` in the edge set. -/
def Graph.neighbors (G : Graph) (v : Nat) : Finset Nat :=
  ((G.edges.filter (fun e => e.1 = v)).image Prod.snd) ∪
    ((G.edges.filter (fun e => e.2 = v)).image Prod.fst)

/-- Edge pairs are normalized (`u < v`) and lie below the vertex count.
Every graph the scripts build satisfies this. -/
def Graph.wf (G : Graph) : Prop :=
  ∀ e ∈ G.edges, e.1 < e.2 ∧ e.2 < G.n

/-- No three mutually adjacent vertices. -/
def Graph.triangleFree (G : Graph) : Prop :=
  ∀ a b c, G.has_edge a b = true → G.has_edge a c = true →
    G.has_edge b c = true → False

/-- `itertools.combinations(l, k)`: all length-`k` subsequences of `l`,
in lexicographic order of positions. -/
def combinations : Nat → List Nat → List (List Nat)
  | 0, _ => [[]]
  | _ + 1, [] => []
  | k + 1, x :: xs =>
      ((combinations k xs).map (fun ys => x :: ys)) ++ combinations (k + 1) xs

/-- `is_independent_set(G, nodes)` from `find_triangle_free.py`: iterate
`itertools.combinations(nodes, 2)` and fail on any adjacent pair. -/
def is_independent_set (G : Graph) : List Nat → Bool
  | [] => true
  | u :: rest => (rest.all fun v => !(G.has_edge u v)) && is_independent_set G rest

/-- `check_properties(G, k)` from `find_triangle_free.py` (property `Ψ_k`).
The source first tests `len(nodes) < 2*k + 1` and inside that branch
returns `True` when `len(nodes) < 2*k`; otherwise it falls through to the
main double loop, so the vacuous branch is exactly `len(nodes) < 2*k`.
The witness test `X_set.issubset(neighbors(z))` is "z adjacent to every
x ∈ X" and `Y_set.isdisjoint(neighbors(z))` is "z adjacent to no y ∈ Y". -/
def check_properties (G : Graph) (k : Nat) : Bool :=
  let nodes := List.range G.n
  if nodes.length < 2 * k then true
  else
    (combinations k nodes).all fun X =>
      if is_independent_set G X then
        let remaining := nodes.filter fun v => !(X.contains v)
        (combinations k remaining).all fun Y =>
          let candidates := remaining.filter fun u => !(Y.contains u)
          candidates.any fun z =>
            (X.all fun x => G.has_edge z x) && (Y.all fun y => !(G.has_edge z y))
      else true

/-- Independence as a predicate on finite vertex sets: no two distinct
members adjacent.  Equivalent to `is_independent_set` on duplicate-free
lists (proved below). -/
def Graph.indepS (G : Graph) (s : Finset Nat) : Prop :=
  ∀ u ∈ s, ∀ v ∈ s, u ≠ v → G.has_edge u v = false

instance (G : Graph) (s : Finset Nat) : Decidable (G.indepS s) := by
  unfold Graph.indepS; infer_instance

/-- The neighbor subsets tried for the next vertex in `_recursive_build`:
the source iterates `itertools.combinations(nodes, r)` for every
`r = 0 … len(nodes)` and keeps the independent ones, i.e. every subset
of the duplicate-free node list exactly once, filtered by
`is_independent_set` (the enumeration order is not semantically
significant per the spec). -/
def independent_subsets (G : Graph) : List (List Nat) :=
  (List.range G.n).sublists.filter fun s => is_independent_set G s

/-- Add the next vertex `G.n` and connect it to exactly the subset `s`
of the existing vertices (`G_new.add_edge(new_node, neighbor)`). -/
def Graph.extend (G : Graph) (s : List Nat) : Graph :=
  ⟨G.n + 1, G.edges ∪ (s.map fun u => (u, G.n)).toFinset⟩

/-- `_recursive_build(G, target_size)`; `fuel` is `target_size`
minus the current order, which shrinks by one at every extension. -/
def recursive_build (G : Graph) : Nat → List Graph
  | 0 => [G]
  | fuel + 1 =>
      (independent_subsets G).flatMap fun s => recursive_build (G.extend s) fuel

/-- `generate_triangle_free_graphs(N)`: start from the single-vertex
graph and extend `N - 1` times.  (For `N = 0` the source generator never
reaches the target order and yields nothing.) -/
def generate_triangle_free_graphs (N : Nat) : List Graph :=
  if N = 0 then [] else recursive_build ⟨1, ∅⟩ (N - 1)

/-- The induced subgraph on the first `m` vertices of a normalized graph:
keep the edges whose larger endpoint is below `m`. -/
def Graph.restrict (G : Graph) (m : Nat) : Graph :=
  ⟨m, G.edges.filter fun e => e.2 < m⟩

/-- Property 1 of `check_corollary_4_properties` (lines 84–99 of
`generate_with_nauty.py`): every independent set of size 1, 2 or 3 has a
common neighbor.  `range(1, 4)` is the size loop; the `if not subset:
continue` guard is the empty-tuple case; the running intersection
`common_neighbors &= set(G.neighbors(node))` is the fold. -/
def common_neighbor_part (G : Graph) : Bool :=
  let nodes := List.range G.n
  (List.range' 1 3).all fun k =>
    (combinations k nodes).all fun subset =>
      if is_independent_set G subset then
        match subset with
        | [] => true
        | x :: rest =>
            !decide ((rest.foldl (fun acc v => acc ∩ G.neighbors v) (G.neighbors x)) = ∅)
      else true

/-- Property 2 of `check_corollary_4_properties`: no two distinct
vertices share the same neighbor set (the source loops over index pairs
`i < j` of the node list). -/
def twin_free_part (G : Graph) : Bool :=
  (combinations 2 (List.range G.n)).all fun p =>
    match p with
    | [u, v] => !decide (G.neighbors u = G.neighbors v)
    | _ => true

/-- The reference (Andrásfai-type) graph built in
`check_corollary_4_properties`: vertices `0 … N-1`, an edge between
`u < v` exactly when `((v - u) % N) % 3 == 1`. -/
def andrasfai (N : Nat) : Graph :=
  ⟨N, ((Finset.range N) ×ˢ (Finset.range N)).filter fun e =>
        e.1 < e.2 ∧ (e.2 - e.1) % N % 3 = 1⟩

/-- Modelled from the spec: the isomorphism oracle (`nx.is_isomorphic`,
an external library call whose code is not part of this repository) —
"does there exist a bijection between vertex sets preserving adjacency
in both directions?". -/
def isIsomorphic (G H : Graph) : Prop :=
  ∃ σ : Fin G.n ≃ Fin H.n, ∀ u v : Fin G.n,
    G.has_edge u.val v.val = H.has_edge (σ u).val (σ v).val

instance (G H : Graph) : Decidable (isIsomorphic G H) := by
  unfold isIsomorphic; infer_instance

/-- Property 3 of `check_corollary_4_properties` (lines 108–126): when
`(N + 1) % 3 == 0`, build the reference graph and reject a candidate
isomorphic to it; otherwise the step is skipped. -/
def reference_family_part (G : Graph) : Bool :=
  if (G.n + 1) % 3 = 0 then !decide (isIsomorphic G (andrasfai G.n)) else true

/-- `check_corollary_4_properties(G)`: the three sequential checks; an
early `return False` in any of them makes the result `False`. -/
def check_corollary_4_properties (G : Graph) : Bool :=
  common_neighbor_part G && twin_free_part G && reference_family_part G

/-- A worker's return value in `run_manager.py`:
`(res, count, elapsed_time, graphs)` on success and
`(res, 0, 0, str(e))` when the slice raised; the fourth component is a
string (the error description) exactly in the failure case. -/
structure SliceResult where
  res : Nat
  count : Nat
  elapsed : Nat
  data : Sum String (List String)
deriving DecidableEq

/-- `worker_task(args)` from `run_manager.py`.  The candidate source
`generate_custom_graphs` is the module imported from the worker's own
directory (`Optimized C code/generate_custom.py`, not part of the
checked sources); it is passed in as a function of the order, residue,
modulus and the two degree bounds whose outcome is either the slice's
graph list or a raised error's description (`except Exception as e`).
`elapsed` abstracts the wall-clock measurement. -/
def worker_task (generate_custom_graphs : Nat → Nat → Nat → Nat → Nat → Except String (List String))
    (elapsed : Nat) (args : Nat × Nat × Nat × Nat × Nat) : SliceResult :=
  match args with
  | (n, res, mod, min_deg, max_deg) =>
      match generate_custom_graphs n res mod min_deg max_deg with
      | Except.ok graphs => ⟨res, graphs.length, elapsed, Sum.inr graphs⟩
      | Except.error e => ⟨res, 0, 0, Sum.inl e⟩

/-- The collection loop of `main` in `run_manager.py` (lines 143–153):
for each finished slice, a string result is logged as a failure while a
list result extends `all_graphs` and records `(res, count, elapsed)` in
`stats`; returns `(all_graphs, stats, failure log)`. -/
def collect_results (results : List SliceResult) :
    List String × List (Nat × Nat × Nat) × List (Nat × String) :=
  results.foldl
    (fun acc r =>
      match r.data with
      | Sum.inl e => (acc.1, acc.2.1, acc.2.2 ++ [(r.res, e)])
      | Sum.inr graphs => (acc.1 ++ graphs, acc.2.1 ++ [(r.res, r.count, r.elapsed)], acc.2.2))
    ([], [], [])

/-- Edge bounds computed in `generate_custom_graphs`
(`generate_custom.py` lines 57–64): `3*n - 15` clamped at zero, and
`math.floor(((n - 1)**2)/4 + 1)`. -/
def generate_custom_edge_bounds (n : Nat) : Int × Int :=
  let nedges_min : Int := 3 * (n : Int) - 15
  let nedges_min : Int := if nedges_min < 0 then 0 else nedges_min
  let nedges_max : Int := ⌊(((n : ℚ) - 1) ^ 2 / 4 + 1 : ℚ)⌋
  (nedges_min, nedges_max)

/-- Edge bounds computed in `generate_graphs`
(`generate_with_nauty.py` lines 31–36): the same two formulas but with
no clamping of the minimum. -/
def generate_graphs_edge_bounds (n : Nat) : Int × Int :=
  let nedges_max : Int := ⌊(((n : ℚ) - 1) ^ 2 / 4 + 1 : ℚ)⌋
  let nedges_min : Int := 3 * (n : Int) - 15
  (nedges_min, nedges_max)

/-- The witness property `Ψ_k` as the spec states it: for every
independent set `X` of size `k` and every size-`k` set `Y` disjoint from
`X`, some vertex `z` outside `X ∪ Y` is adjacent to all of `X` and to
none of `Y`. -/
def psi (G : Graph) (k : Nat) : Prop :=
  ∀ X : Finset Nat, X ⊆ Finset.range G.n → X.card = k → G.indepS X →
    ∀ Y : Finset Nat, Y ⊆ Finset.range G.n → Y.card = k → Disjoint X Y →
      ∃ z, z < G.n ∧ z ∉ X ∧ z ∉ Y ∧
        (∀ x ∈ X, G.has_edge z x = true) ∧ (∀ y ∈ Y, G.has_edge z y = false)

/-- A qualifying `(X, Y)` pair for `Ψ_k`: an independent `X` of size `k`
together with a size-`k` set `Y` of vertices disjoint from `X`
(`Y` need not be independent). -/
def qualifying_pair (G : Graph) (k : Nat) : Prop :=
  ∃ X : Finset Nat, X ⊆ Finset.range G.n ∧ X.card = k ∧ G.indepS X ∧
    ∃ Y : Finset Nat, Y ⊆ Finset.range G.n ∧ Y.card = k ∧ Disjoint X Y

/-! ## Basic facts about the graph model -/

theorem Graph.has_edge_comm (G : Graph) (u v : Nat) :
    G.has_edge u v = G.has_edge v u := by
  simp only [Graph.has_edge]
  exact decide_eq_decide.2 or_comm

theorem Graph.mem_neighbors {G : Graph} {v u : Nat} :
    u ∈ G.neighbors v ↔ G.has_edge v u = true := by
  simp only [Graph.neighbors, Graph.has_edge, Finset.mem_union, Finset.mem_image,
    Finset.mem_filter, decide_eq_true_eq]
  constructor
  · rintro (⟨⟨a, b⟩, ⟨hm, h1⟩, h2⟩ | ⟨⟨a, b⟩, ⟨hm, h1⟩, h2⟩)
    · exact Or.inl (by simpa [← h1, ← h2] using hm)
    · exact Or.inr (by simpa [← h1, ← h2] using hm)
  · rintro (h | h)
    · exact Or.inl ⟨(v, u), ⟨h, rfl⟩, rfl⟩
    · exact Or.inr ⟨(u, v), ⟨h, rfl⟩, rfl⟩

/-! ## `itertools.combinations` -/

theorem mem_combinations : ∀ (l : List Nat) (k : Nat) (ys : List Nat),
    ys ∈ combinations k l ↔ ys.Sublist l ∧ ys.length = k := by
  intro l
  induction l with
  | nil =>
    intro k ys
    cases k with
    | zero =>
      simp only [combinations, List.mem_singleton, List.sublist_nil, List.length_eq_zero]
      exact ⟨fun h => ⟨h, h⟩, fun h => h.1⟩
    | succ k =>
      simp only [combinations, List.not_mem_nil, false_iff, not_and, List.sublist_nil]
      rintro rfl
      simp
  | cons x xs ih =>
    intro k ys
    cases k with
    | zero =>
      simp only [combinations, List.mem_singleton, List.length_eq_zero]
      constructor
      · rintro rfl; exact ⟨List.nil_sublist _, rfl⟩
      · rintro ⟨_, rfl⟩; rfl
    | succ k =>
      simp only [combinations, List.mem_append, List.mem_map, ih]
      constructor
      · rintro (⟨zs, ⟨hsub, hlen⟩, rfl⟩ | ⟨hsub, hlen⟩)
        · exact ⟨hsub.cons_cons x, by simp [hlen]⟩
        · exact ⟨hsub.cons x, hlen⟩
      · rintro ⟨hsub, hlen⟩
        cases ys with
        | nil => simp at hlen
        | cons a as =>
          rw [List.cons_sublist_cons'] at hsub
          rcases hsub with h | ⟨rfl, h⟩
          · exact Or.inr ⟨h, hlen⟩
          · exact Or.inl ⟨as, ⟨h, by simpa using hlen⟩, rfl⟩

/-! ## Sorted lists and sublists -/

theorem sorted_subset_sublist : ∀ (l₂ l₁ : List Nat),
    List.Pairwise (· < ·) l₁ → List.Pairwise (· < ·) l₂ →
    (∀ a ∈ l₁, a ∈ l₂) → l₁.Sublist l₂ := by
  intro l₂
  induction l₂ with
  | nil =>
    intro l₁ _ _ hsub
    cases l₁ with
    | nil => exact List.Sublist.refl _
    | cons a as => exact absurd (hsub a (List.mem_cons_self _ _)) (List.not_mem_nil a)
  | cons b r ih =>
    intro l₁ h1 h2 hsub
    cases l₁ with
    | nil => exact List.nil_sublist _
    | cons a as =>
      rcases List.mem_cons.1 (hsub a (List.mem_cons_self _ _)) with rfl | hmem
      · refine List.Sublist.cons_cons a (ih as (h1.sublist (List.sublist_cons_self _ _))
          (h2.sublist (List.sublist_cons_self _ _)) ?_)
        intro x hx
        have hax : a < x := List.rel_of_pairwise_cons h1 hx
        rcases List.mem_cons.1 (hsub x (List.mem_cons_of_mem _ hx)) with rfl | h
        · exact absurd hax (lt_irrefl x)
        · exact h
      · refine List.Sublist.cons b (ih (a :: as) h1
          (h2.sublist (List.sublist_cons_self _ _)) ?_)
        intro x hx
        rcases List.mem_cons.1 (hsub x hx) with rfl | h
        · -- x = b, yet b < a ≤ every member of a :: as
          have hba : x < a := List.rel_of_pairwise_cons h2 hmem
          rcases List.mem_cons.1 hx with rfl | hxas
          · exact absurd hba (lt_irrefl x)
          · exact absurd (hba.trans (List.rel_of_pairwise_cons h1 hxas)) (lt_irrefl x)
        · exact h

theorem sort_sublist_of_sorted {S : Finset Nat} {L : List Nat}
    (hL : List.Pairwise (· < ·) L) (hmem : ∀ a ∈ S, a ∈ L) :
    (S.sort (· ≤ ·)).Sublist L :=
  sorted_subset_sublist L _ (Finset.sort_sorted_lt S) hL
    (fun a ha => hmem a ((Finset.mem_sort _).1 ha))

/-! ## Independence -/

theorem is_independent_set_iff_pairwise (G : Graph) (l : List Nat) :
    is_independent_set G l = true ↔
      List.Pairwise (fun u v => G.has_edge u v = false) l := by
  induction l with
  | nil => simp [is_independent_set]
  | cons u rest ih =>
    simp [is_independent_set, List.pairwise_cons, ih, List.all_eq_true,
      Bool.not_eq_true', and_comm]

theorem is_independent_set_iff_indepS (G : Graph) {l : List Nat} (h : l.Nodup) :
    is_independent_set G l = true ↔ G.indepS l.toFinset := by
  rw [is_independent_set_iff_pairwise]
  constructor
  · intro hp u hu v hv huv
    exact hp.forall (fun a b hab => (G.has_edge_comm b a).trans hab)
      (List.mem_toFinset.1 hu) (List.mem_toFinset.1 hv) huv
  · intro hs
    exact h.imp_of_mem fun {a b} ha hb hne =>
      hs a (List.mem_toFinset.2 ha) b (List.mem_toFinset.2 hb) hne

theorem is_independent_set_sort (G : Graph) {S : Finset Nat} (h : G.indepS S) :
    is_independent_set G (S.sort (· ≤ ·)) = true := by
  rw [is_independent_set_iff_indepS G (Finset.sort_nodup _ S), Finset.sort_toFinset]
  exact h

/-! ## Small boolean helpers -/

theorem ite_eq_true_right {P : Prop} [Decidable P] (a : Bool) :
    ((if P then a else true) = true) ↔ (P → a = true) := by
  split <;> simp_all

theorem contains_iff {l : List Nat} {v : Nat} : l.contains v = true ↔ v ∈ l := by
  simp [List.contains, List.elem_iff]


/-- Core characterization: as soon as the vacuous branch is not taken
(`2k ≤ n`), the double loop of `check_properties` decides exactly `Ψ_k`. -/
theorem check_properties_iff_psi (G : Graph) (k : Nat) (h : 2 * k ≤ G.n) :
    check_properties G k = true ↔ psi G k := by
  unfold check_properties
  simp only [List.length_range]
  rw [if_neg (not_lt.2 h)]
  simp only [List.all_eq_true, List.any_eq_true, ite_eq_true_right,
    Bool.and_eq_true, Bool.not_eq_true']
  constructor
  · intro H X hXsub hXcard hXindep Y hYsub hYcard hdisj
    have h1 : (X.sort (· ≤ ·)).Sublist (List.range G.n) :=
      sort_sublist_of_sorted (List.pairwise_lt_range G.n)
        (fun a ha => List.mem_range.2 (Finset.mem_range.1 (hXsub ha)))
    have h2 : (X.sort (· ≤ ·)).length = k := by
      rw [Finset.length_sort]; exact hXcard
    have hmemX : X.sort (· ≤ ·) ∈ combinations k (List.range G.n) :=
      (mem_combinations _ _ _).2 ⟨h1, h2⟩
    have hremPW : ((List.range G.n).filter
        (fun v => !((X.sort (· ≤ ·)).contains v))).Pairwise (· < ·) :=
      List.Pairwise.sublist (List.filter_sublist _) (List.pairwise_lt_range G.n)
    have hYrem : (Y.sort (· ≤ ·)).Sublist ((List.range G.n).filter
        (fun v => !((X.sort (· ≤ ·)).contains v))) := by
      refine sort_sublist_of_sorted hremPW ?_
      intro a ha
      refine List.mem_filter.2 ⟨List.mem_range.2 (Finset.mem_range.1 (hYsub ha)), ?_⟩
      simp only [Bool.not_eq_true', ← Bool.not_eq_true, contains_iff, Finset.mem_sort]
      exact fun hmem => (Finset.disjoint_right.1 hdisj ha) hmem
    have hmemY : Y.sort (· ≤ ·) ∈ combinations k ((List.range G.n).filter
        (fun v => !((X.sort (· ≤ ·)).contains v))) :=
      (mem_combinations _ _ _).2 ⟨hYrem, by rw [Finset.length_sort]; exact hYcard⟩
    obtain ⟨z, hzmem, hadjX, hadjY⟩ :=
      H _ hmemX (is_independent_set_sort G hXindep) _ hmemY
    obtain ⟨hz1, hz2⟩ := List.mem_filter.1 hzmem
    obtain ⟨hz3, hz4⟩ := List.mem_filter.1 hz1
    refine ⟨z, List.mem_range.1 hz3, ?_, ?_, ?_, ?_⟩
    · intro hzX
      rw [Bool.not_eq_true', ← Bool.not_eq_true] at hz4
      exact hz4 (contains_iff.2 ((Finset.mem_sort _).2 hzX))
    · intro hzY
      rw [Bool.not_eq_true', ← Bool.not_eq_true] at hz2
      exact hz2 (contains_iff.2 ((Finset.mem_sort _).2 hzY))
    · exact fun x hx => hadjX x ((Finset.mem_sort _).2 hx)
    · exact fun y hy => hadjY y ((Finset.mem_sort _).2 hy)
  · intro H X hXmem hXindep Y hYmem
    obtain ⟨hXsub, hXlen⟩ := (mem_combinations _ _ _).1 hXmem
    have hXnd : X.Nodup := hXsub.nodup (List.nodup_range G.n)
    obtain ⟨hYsub, hYlen⟩ := (mem_combinations _ _ _).1 hYmem
    have hRnd : ((List.range G.n).filter (fun v => !(X.contains v))).Nodup :=
      (List.filter_sublist _).nodup (List.nodup_range G.n)
    have hYnd : Y.Nodup := hYsub.nodup hRnd
    have hYrem : ∀ y ∈ Y, y < G.n ∧ y ∉ X := by
      intro y hy
      obtain ⟨h1, h2⟩ := List.mem_filter.1 (hYsub.subset hy)
      rw [Bool.not_eq_true', ← Bool.not_eq_true] at h2
      exact ⟨List.mem_range.1 h1, fun hmem => h2 (contains_iff.2 hmem)⟩
    obtain ⟨z, hzn, hzX, hzY, hadjX, hadjY⟩ :=
      H X.toFinset
        (fun a ha => Finset.mem_range.2
          (List.mem_range.1 (hXsub.subset (List.mem_toFinset.1 ha))))
        (by rw [List.toFinset_card_of_nodup hXnd]; exact hXlen)
        ((is_independent_set_iff_indepS G hXnd).1 hXindep)
        Y.toFinset
        (fun a ha => Finset.mem_range.2 ((hYrem a (List.mem_toFinset.1 ha)).1))
        (by rw [List.toFinset_card_of_nodup hYnd]; exact hYlen)
        (Finset.disjoint_right.2 fun {a} ha hmem =>
          (hYrem a (List.mem_toFinset.1 ha)).2 (List.mem_toFinset.1 hmem))
    refine ⟨z, ?_, ?_, ?_⟩
    · refine List.mem_filter.2 ⟨List.mem_filter.2 ⟨List.mem_range.2 hzn, ?_⟩, ?_⟩
      · simp only [Bool.not_eq_true', ← Bool.not_eq_true, contains_iff]
        exact fun hmem => hzX (List.mem_toFinset.2 hmem)
      · simp only [Bool.not_eq_true', ← Bool.not_eq_true, contains_iff]
        exact fun hmem => hzY (List.mem_toFinset.2 hmem)
    · exact fun x hx => hadjX x (List.mem_toFinset.2 hx)
    · exact fun y hy => hadjY y (List.mem_toFinset.2 hy)

/-- C1: for every graph `G` with at least `2k+1` vertices and every
`k ≥ 1`, `check_properties(G, k)` returns true iff for every independent
set `X` of size `k` and every size-`k` set `Y` disjoint from `X` there
is a vertex `z ∉ X ∪ Y` adjacent to every vertex of `X` and to none of
`Y`. -/
theorem claim_C1 (G : Graph) (k : Nat) (hk : 1 ≤ k) (hn : 2 * k + 1 ≤ G.n) :
    check_properties G k = true ↔ psi G k :=
  check_properties_iff_psi G k (le_trans (Nat.le_succ _) hn)

theorem claim_C1_witness :
    1 ≤ 1 ∧ 2 * 1 + 1 ≤ (Graph.mk 3 ∅).n ∧
      (check_properties ⟨3, ∅⟩ 1 = true ↔ psi ⟨3, ∅⟩ 1) :=
  ⟨Nat.le_refl 1, by decide, claim_C1 ⟨3, ∅⟩ 1 (Nat.le_refl 1) (by decide)⟩

theorem check_properties_of_small (G : Graph) (k : Nat) (h : G.n < 2 * k) :
    check_properties G k = true := by
  unfold check_properties
  simp only [List.length_range]
  rw [if_pos h]

theorem not_psi_iff_qualifying_pair (G : Graph) (k : Nat) (hn : G.n = 2 * k) :
    ¬ psi G k ↔ qualifying_pair G k := by
  constructor
  · intro hnpsi
    by_contra hno
    apply hnpsi
    intro X hs hc hi Y hys hyc hd
    exact absurd ⟨X, hs, hc, hi, Y, hys, hyc, hd⟩ hno
  · rintro ⟨X, hs, hc, hi, Y, hys, hyc, hd⟩ hpsi
    obtain ⟨z, hzn, hzX, hzY, -, -⟩ := hpsi X hs hc hi Y hys hyc hd
    have hunion : X ∪ Y = Finset.range G.n := by
      refine Finset.eq_of_subset_of_card_le (Finset.union_subset hs hys) ?_
      rw [Finset.card_union_of_disjoint hd, hc, hyc, Finset.card_range, hn]
      omega
    have : z ∈ X ∪ Y := by rw [hunion]; exact Finset.mem_range.2 hzn
    rcases Finset.mem_union.1 this with h | h
    · exact hzX h
    · exact hzY h

/-- C2: for `k ≥ 1`, a graph with fewer than `2k` vertices passes
vacuously; a graph with exactly `2k` vertices fails exactly when a
qualifying `(X, Y)` pair exists (no witness can fit); in particular for
`k = 1` a graph with fewer than 2 vertices passes and every 2-vertex
graph fails. -/
theorem claim_C2 (G : Graph) (k : Nat) (hk : 1 ≤ k) :
    (G.n < 2 * k → check_properties G k = true) ∧
    (G.n = 2 * k → (check_properties G k = false ↔ qualifying_pair G k)) ∧
    (k = 1 → G.n < 2 → check_properties G 1 = true) ∧
    (k = 1 → G.n = 2 → check_properties G 1 = false) := by
  have main : G.n = 2 * k → (check_properties G k = false ↔ qualifying_pair G k) := by
    intro hn
    rw [Bool.eq_false_iff, Ne, check_properties_iff_psi G k (le_of_eq hn.symm)]
    exact not_psi_iff_qualifying_pair G k hn
  refine ⟨check_properties_of_small G k, main, ?_, ?_⟩
  · rintro rfl h
    exact check_properties_of_small G 1 (by simpa using h)
  · rintro rfl hn
    rw [main (by simpa using hn)]
    refine ⟨{0}, ?_, Finset.card_singleton 0, ?_, {1}, ?_, Finset.card_singleton 1, ?_⟩
    · simp [hn]
    · intro u hu v hv huv
      rw [Finset.mem_singleton] at hu hv
      exact absurd (hu.trans hv.symm) huv
    · simp [hn]
    · simp

theorem claim_C2_witness :
    1 ≤ 1 ∧
      (((Graph.mk 2 ∅).n < 2 * 1 → check_properties ⟨2, ∅⟩ 1 = true) ∧
       ((Graph.mk 2 ∅).n = 2 * 1 →
         (check_properties ⟨2, ∅⟩ 1 = false ↔ qualifying_pair ⟨2, ∅⟩ 1)) ∧
       (1 = 1 → (Graph.mk 2 ∅).n < 2 → check_properties ⟨2, ∅⟩ 1 = true) ∧
       (1 = 1 → (Graph.mk 2 ∅).n = 2 → check_properties ⟨2, ∅⟩ 1 = false)) :=
  ⟨Nat.le_refl 1, claim_C2 ⟨2, ∅⟩ 1 (Nat.le_refl 1)⟩

/-- C9 counterexample: with the out-of-range parameter `k = 0` the
checker silently returns an ordinary boolean verdict (`True` on the
one-vertex graph); no validation error is raised anywhere in
`check_properties`. -/
theorem claim_C9_counterexample : check_properties ⟨1, ∅⟩ 0 = true := by decide

/-- C9 (amended): `check_properties` performs no validation of `k`; for
the out-of-range value `k = 0` it runs the ordinary loops and returns a
plain boolean: true exactly when the graph has at least one vertex. -/
theorem claim_C9 (G : Graph) : check_properties G 0 = decide (1 ≤ G.n) := by
  unfold check_properties
  simp only [List.length_range, Nat.mul_zero, Nat.not_lt_zero, if_false,
    combinations, List.all_cons, List.all_nil, Bool.and_true]
  have h1 : ∀ l : List Nat, l.filter (fun u => ! List.contains [] u) = l :=
    fun l => List.filter_eq_self.2 fun a _ => rfl
  rw [if_pos (show is_independent_set G [] = true from rfl), h1, h1]
  rcases Nat.eq_zero_or_pos G.n with h | h
  · rw [h]; rfl
  · rw [decide_eq_true (show 1 ≤ G.n from h)]
    exact List.any_eq_true.2 ⟨0, List.mem_range.2 h, rfl⟩

/-! ## Common-neighbor property (C4) -/

theorem mem_foldl_inter (G : Graph) (w : Nat) :
    ∀ (l : List Nat) (init : Finset Nat),
      (w ∈ l.foldl (fun acc v => acc ∩ G.neighbors v) init ↔
        w ∈ init ∧ ∀ v ∈ l, w ∈ G.neighbors v) := by
  intro l
  induction l with
  | nil => intro init; simp
  | cons v rest ih =>
    intro init
    rw [List.foldl_cons, ih, Finset.mem_inter]
    simp [and_assoc]

theorem common_neighbor_part_iff (G : Graph) :
    common_neighbor_part G = true ↔
      ∀ S : Finset Nat, S ⊆ Finset.range G.n → 1 ≤ S.card → S.card ≤ 3 →
        G.indepS S → ∃ w, ∀ v ∈ S, w ∈ G.neighbors v := by
  unfold common_neighbor_part
  simp only [List.all_eq_true, ite_eq_true_right]
  constructor
  · intro H S hsub hc1 hc3 hindep
    have hknum : S.card = 1 ∨ S.card = 2 ∨ S.card = 3 := by omega
    have hk : S.card ∈ List.range' 1 3 := by
      rcases hknum with h | h | h <;> rw [h] <;> decide
    have hsubl : (S.sort (· ≤ ·)).Sublist (List.range G.n) :=
      sort_sublist_of_sorted (List.pairwise_lt_range G.n)
        (fun a ha => List.mem_range.2 (Finset.mem_range.1 (hsub ha)))
    have hmem : S.sort (· ≤ ·) ∈ combinations S.card (List.range G.n) :=
      (mem_combinations _ _ _).2 ⟨hsubl, Finset.length_sort _⟩
    have := H S.card hk _ hmem (is_independent_set_sort G hindep)
    rcases hl : S.sort (· ≤ ·) with - | ⟨x, rest⟩
    · exfalso
      have := Finset.length_sort (α := Nat) (r := (· ≤ ·)) (s := S)
      rw [hl] at this
      simp only [List.length_nil] at this
      omega
    · rw [hl] at this
      simp only [Bool.not_eq_true', decide_eq_false_iff_not] at this
      obtain ⟨w, hw⟩ := Finset.nonempty_iff_ne_empty.2 this
      rw [mem_foldl_inter] at hw
      refine ⟨w, fun v hv => ?_⟩
      have hv' : v ∈ S.sort (· ≤ ·) := (Finset.mem_sort _).2 hv
      rw [hl, List.mem_cons] at hv'
      rcases hv' with rfl | hv'
      · exact hw.1
      · exact hw.2 v hv'
  · intro H k hk subset hmem hindep
    rcases subset with - | ⟨x, rest⟩
    · rfl
    · obtain ⟨hsubl, hlen⟩ := (mem_combinations _ _ _).1 hmem
      have hnd : (x :: rest).Nodup := hsubl.nodup (List.nodup_range G.n)
      have hk3 : k ≤ 3 := by
        have : k = 1 ∨ k = 2 ∨ k = 3 := by simpa [List.range'] using hk
        omega
      obtain ⟨w, hw⟩ := H (x :: rest).toFinset
        (fun a ha => Finset.mem_range.2
          (List.mem_range.1 (hsubl.subset (List.mem_toFinset.1 ha))))
        (by rw [List.toFinset_card_of_nodup hnd]; simp)
        (by rw [List.toFinset_card_of_nodup hnd, hlen]; exact hk3)
        ((is_independent_set_iff_indepS G hnd).1 hindep)
      simp only [Bool.not_eq_true', decide_eq_false_iff_not]
      refine Finset.nonempty_iff_ne_empty.1 ⟨w, ?_⟩
      rw [mem_foldl_inter]
      exact ⟨hw x (List.mem_toFinset.2 (List.mem_cons_self x rest)),
        fun v hv => hw v (List.mem_toFinset.2 (List.mem_cons_of_mem x hv))⟩

/-- C4: the common-neighbor part of `check_corollary_4_properties` is
false iff some independent set `S` with `1 ≤ |S| ≤ 3` has an empty
intersection of its members' neighbor sets (the empty subset is
excluded). -/
theorem claim_C4 (G : Graph) :
    common_neighbor_part G = false ↔
      ∃ S : Finset Nat, S ⊆ Finset.range G.n ∧ 1 ≤ S.card ∧ S.card ≤ 3 ∧
        G.indepS S ∧ ¬ ∃ w, ∀ v ∈ S, w ∈ G.neighbors v := by
  rw [Bool.eq_false_iff, Ne, common_neighbor_part_iff]
  constructor
  · intro h
    by_contra hno
    apply h
    intro S h1 h2 h3 h4
    by_contra hw
    exact hno ⟨S, h1, h2, h3, h4, hw⟩
  · rintro ⟨S, h1, h2, h3, h4, h5⟩ hP
    exact h5 (hP S h1 h2 h3 h4)

/-! ## Reference-family exclusion (C5) -/

/-- C5: the reference step runs only when `(N+1) % 3 == 0`; in that case
it returns false exactly when `G` is isomorphic to the reference graph
(whose edges between `u < v < N` are exactly those with
`((v-u) % N) % 3 == 1`); otherwise the step is vacuously satisfied. -/
theorem claim_C5 (G : Graph) :
    ((G.n + 1) % 3 ≠ 0 → reference_family_part G = true) ∧
    ((G.n + 1) % 3 = 0 →
      (reference_family_part G = false ↔ isIsomorphic G (andrasfai G.n))) ∧
    (∀ u v, u < v → v < G.n →
      ((andrasfai G.n).has_edge u v = true ↔ (v - u) % G.n % 3 = 1)) := by
  refine ⟨?_, ?_, ?_⟩
  · intro h
    unfold reference_family_part
    rw [if_neg h]
  · intro h
    unfold reference_family_part
    rw [if_pos h]
    simp
  · intro u v huv hvn
    simp only [andrasfai, Graph.has_edge, Finset.mem_filter, Finset.mem_product,
      Finset.mem_range, decide_eq_true_eq]
    constructor
    · rintro (⟨⟨-, -⟩, -, hmod⟩ | ⟨⟨-, -⟩, hlt, -⟩)
      · exact hmod
      · exact absurd hlt (by omega)
    · intro hmod
      exact Or.inl ⟨⟨by omega, hvn⟩, huv, hmod⟩

theorem claim_C5_witness :
    (((Graph.mk 3 ∅).n + 1) % 3 ≠ 0 ∧ reference_family_part ⟨3, ∅⟩ = true) ∧
    (((andrasfai 2).n + 1) % 3 = 0 ∧
      (reference_family_part (andrasfai 2) = false ↔
        isIsomorphic (andrasfai 2) (andrasfai (andrasfai 2).n))) ∧
    (0 < 1 ∧ 1 < (andrasfai 2).n ∧
      ((andrasfai (andrasfai 2).n).has_edge 0 1 = true ↔
        (1 - 0) % (andrasfai 2).n % 3 = 1)) :=
  ⟨⟨by decide, (claim_C5 ⟨3, ∅⟩).1 (by decide)⟩,
   ⟨by decide, (claim_C5 (andrasfai 2)).2.1 (by decide)⟩,
   ⟨Nat.zero_lt_one, by decide, (claim_C5 (andrasfai 2)).2.2 0 1 Nat.zero_lt_one (by decide)⟩⟩

/-! ## Degenerate independent sets and isolated vertices (C10) -/

/-- C10: sets of at most one vertex (including the empty set) always
pass `is_independent_set`; consequently the empty subset is always among
the enumerator's extension choices (isolated vertices are produced), and
every graph with an isolated vertex fails `check_corollary_4_properties`
through the size-1 common-neighbor check. -/
theorem claim_C10 :
    (∀ (G : Graph) (s : List Nat), s.length ≤ 1 → is_independent_set G s = true) ∧
    (∀ G : Graph, [] ∈ independent_subsets G) ∧
    (∀ G : Graph, ∀ v, v < G.n → G.neighbors v = ∅ →
      check_corollary_4_properties G = false) := by
  refine ⟨?_, ?_, ?_⟩
  · intro G s hs
    rcases s with - | ⟨u, - | ⟨v, rest⟩⟩
    · rfl
    · simp [is_independent_set]
    · simp only [List.length_cons] at hs
      omega
  · intro G
    exact List.mem_filter.2 ⟨List.mem_sublists.2 (List.nil_sublist _), rfl⟩
  · intro G v hv hnb
    have hcom : common_neighbor_part G = false := by
      rw [Bool.eq_false_iff, Ne, common_neighbor_part_iff]
      intro H
      obtain ⟨w, hw⟩ := H {v} (by simpa using hv) (by simp) (by simp)
        (fun u hu u' hu' huu' => by
          rw [Finset.mem_singleton] at hu hu'
          exact absurd (hu.trans hu'.symm) huu')
      have := hw v (Finset.mem_singleton_self v)
      rw [hnb] at this
      exact Finset.not_mem_empty w this
    unfold check_corollary_4_properties
    rw [hcom]
    rfl

theorem claim_C10_witness :
    ([] : List Nat).length ≤ 1 ∧ is_independent_set ⟨1, ∅⟩ [] = true ∧
    [] ∈ independent_subsets ⟨1, ∅⟩ ∧
    0 < (Graph.mk 1 ∅).n ∧ (Graph.mk 1 ∅).neighbors 0 = ∅ ∧
      check_corollary_4_properties ⟨1, ∅⟩ = false :=
  ⟨Nat.zero_le 1, claim_C10.1 ⟨1, ∅⟩ [] (Nat.zero_le 1), claim_C10.2.1 ⟨1, ∅⟩,
    Nat.zero_lt_one, by decide, claim_C10.2.2 ⟨1, ∅⟩ 0 Nat.zero_lt_one (by decide)⟩

/-! ## Edge-count bounds (C7) -/

/-- C7 counterexample: for order `n = 4`, `generate_graphs` in
`generate_with_nauty.py` passes the unclamped lower bound
`3*4 - 15 = -3 < 0` to the external generator, so the claimed formula
`min = max(0, 3n - 15)` (never negative) does not hold on that path. -/
theorem claim_C7_counterexample :
    generate_graphs_edge_bounds 4 = (-3, 3) ∧
      (generate_graphs_edge_bounds 4).1 < 0 ∧
      (generate_graphs_edge_bounds 4).1 ≠ max 0 (3 * (4 : Int) - 15) := by
  have hfloor : (⌊(((4 : Nat) : ℚ) - 1) ^ 2 / 4 + 1⌋ : ℤ) = 3 := by
    rw [show ((((4 : Nat) : ℚ)) - 1) ^ 2 / 4 + 1 = ((13 : ℤ) : ℚ) / ((4 : ℕ) : ℚ) by norm_num]
    rw [Rat.floor_intCast_div_natCast 13 4]
    rfl
  refine ⟨?_, by decide, by decide⟩
  unfold generate_graphs_edge_bounds
  rw [hfloor]
  rfl

/-- C7 (amended): `generate_custom_graphs` clamps the lower bound,
giving `min = max(0, 3n - 15)` (never negative) and
`max = floor((n-1)^2/4) + 1`; `generate_graphs` in
`generate_with_nauty.py` uses the same maximum but passes the unclamped
`min = 3n - 15`, which is negative for all `n ≤ 4`. -/
theorem claim_C7 (n : Nat) :
    generate_custom_edge_bounds n =
      (max 0 (3 * (n : Int) - 15), ⌊(((n : ℚ) - 1) ^ 2 / 4 : ℚ)⌋ + 1) ∧
    0 ≤ (generate_custom_edge_bounds n).1 ∧
    generate_graphs_edge_bounds n =
      (3 * (n : Int) - 15, ⌊(((n : ℚ) - 1) ^ 2 / 4 : ℚ)⌋ + 1) := by
  have hmax : ∀ x : Int, (if x < 0 then 0 else x) = max 0 x := by
    intro x
    rcases lt_or_ge x 0 with h | h
    · rw [if_pos h, max_eq_left h.le]
    · rw [if_neg (not_lt.2 h), max_eq_right h]
  have hfl : (⌊(((n : ℚ) - 1) ^ 2 / 4 + 1 : ℚ)⌋ : ℤ) =
      ⌊(((n : ℚ) - 1) ^ 2 / 4 : ℚ)⌋ + 1 := Int.floor_add_one _
  have h1 : generate_custom_edge_bounds n =
      (max 0 (3 * (n : Int) - 15), ⌊(((n : ℚ) - 1) ^ 2 / 4 : ℚ)⌋ + 1) := by
    simp only [generate_custom_edge_bounds]
    rw [hmax, hfl]
  have h3 : generate_graphs_edge_bounds n =
      (3 * (n : Int) - 15, ⌊(((n : ℚ) - 1) ^ 2 / 4 : ℚ)⌋ + 1) := by
    simp only [generate_graphs_edge_bounds]
    rw [hfl]
  exact ⟨h1, by rw [h1]; exact le_max_left 0 _, h3⟩

/-! ## Slice workers and result collection (C6, C8) -/

theorem collect_results_spec (results : List SliceResult) :
    collect_results results =
      ((results.filterMap fun r => match r.data with
          | Sum.inl _ => none
          | Sum.inr graphs => some graphs).flatten,
       results.filterMap fun r => match r.data with
          | Sum.inl _ => none
          | Sum.inr _ => some (r.res, r.count, r.elapsed),
       results.filterMap fun r => match r.data with
          | Sum.inl e => some (r.res, e)
          | Sum.inr _ => none) := by
  have key : ∀ (rs : List SliceResult)
      (acc : List String × List (Nat × Nat × Nat) × List (Nat × String)),
      rs.foldl (fun acc r => match r.data with
        | Sum.inl e => (acc.1, acc.2.1, acc.2.2 ++ [(r.res, e)])
        | Sum.inr graphs =>
            (acc.1 ++ graphs, acc.2.1 ++ [(r.res, r.count, r.elapsed)], acc.2.2)) acc =
      (acc.1 ++ (rs.filterMap fun r => match r.data with
          | Sum.inl _ => none
          | Sum.inr graphs => some graphs).flatten,
       acc.2.1 ++ (rs.filterMap fun r => match r.data with
          | Sum.inl _ => none
          | Sum.inr _ => some (r.res, r.count, r.elapsed)),
       acc.2.2 ++ (rs.filterMap fun r => match r.data with
          | Sum.inl e => some (r.res, e)
          | Sum.inr _ => none)) := by
    intro rs
    induction rs with
    | nil => intro acc; simp
    | cons r rs ih =>
      intro acc
      rcases r with ⟨res, count, elapsed, data⟩
      rcases data with e | graphs
      · simp only [List.foldl_cons, List.filterMap_cons, ih]
        simp [List.append_assoc]
      · simp only [List.foldl_cons, List.filterMap_cons, ih]
        simp [List.append_assoc]
  unfold collect_results
  rw [key]
  simp

/-- C6: a slice whose execution raises is converted at the worker
boundary into a result value `(res, 0, 0, error description)` instead of
propagating; and the collection loop is a total function over all slice
results: every failure is appended to the log while every successful
slice's graphs still reach the aggregate, so one failed slice never
aborts the run. -/
theorem claim_C6 :
    (∀ (gen : Nat → Nat → Nat → Nat → Nat → Except String (List String))
        (elapsed n res mod min_deg max_deg : Nat) (e : String),
        gen n res mod min_deg max_deg = Except.error e →
        worker_task gen elapsed (n, res, mod, min_deg, max_deg) =
          ⟨res, 0, 0, Sum.inl e⟩) ∧
    (∀ results : List SliceResult,
        (collect_results results).1 =
          (results.filterMap fun r => match r.data with
            | Sum.inl _ => none
            | Sum.inr graphs => some graphs).flatten ∧
        (collect_results results).2.2 =
          (results.filterMap fun r => match r.data with
            | Sum.inl e => some (r.res, e)
            | Sum.inr _ => none)) := by
  constructor
  · intro gen elapsed n res mod min_deg max_deg e h
    simp only [worker_task, h]
  · intro results
    rw [collect_results_spec]
    exact ⟨rfl, rfl⟩

theorem claim_C6_witness :
    ((fun _ _ _ _ _ => Except.error "geng not found" :
        Nat → Nat → Nat → Nat → Nat → Except String (List String)) 6 1 2 3 4 =
      Except.error "geng not found") ∧
    worker_task (fun _ _ _ _ _ => Except.error "geng not found") 5 (6, 1, 2, 3, 4) =
      ⟨1, 0, 0, Sum.inl "geng not found"⟩ :=
  ⟨rfl, claim_C6.1 _ 5 6 1 2 3 4 "geng not found" rfl⟩

/-- C8: the worker executes a dispatched task end-to-end: it invokes the
candidate source with exactly the task's order, residue, modulus and
degree bounds, and on success returns the slice result
`(res, count, elapsed, graphs)` with `count` equal to the number of
generated graphs. -/
theorem claim_C8
    (gen : Nat → Nat → Nat → Nat → Nat → Except String (List String))
    (elapsed n res mod min_deg max_deg : Nat) (graphs : List String)
    (h : gen n res mod min_deg max_deg = Except.ok graphs) :
    worker_task gen elapsed (n, res, mod, min_deg, max_deg) =
      ⟨res, graphs.length, elapsed, Sum.inr graphs⟩ := by
  simp only [worker_task, h]

theorem claim_C8_witness :
    ((fun _ _ _ _ _ => Except.ok ["Dhc", "DqK"] :
        Nat → Nat → Nat → Nat → Nat → Except String (List String)) 7 0 1 3 4 =
      Except.ok ["Dhc", "DqK"]) ∧
    worker_task (fun _ _ _ _ _ => Except.ok ["Dhc", "DqK"]) 9 (7, 0, 1, 3, 4) =
      ⟨0, 2, 9, Sum.inr ["Dhc", "DqK"]⟩ :=
  ⟨rfl, claim_C8 _ 9 7 0 1 3 4 ["Dhc", "DqK"] rfl⟩

/-! ## The backtracking enumerator (C3) -/

theorem Graph.wf_has_edge {G : Graph} (hwf : G.wf) {u v : Nat}
    (he : G.has_edge u v = true) : u < G.n ∧ v < G.n ∧ u ≠ v := by
  rw [Graph.has_edge, decide_eq_true_eq] at he
  rcases he with h | h
  · obtain ⟨h1, h2⟩ := hwf _ h
    exact ⟨h1.trans h2, h2, Nat.ne_of_lt h1⟩
  · obtain ⟨h1, h2⟩ := hwf _ h
    exact ⟨h2, h1.trans h2, (Nat.ne_of_lt h1).symm⟩

theorem Graph.has_edge_extend (G : Graph) (s : List Nat) (u v : Nat) :
    (G.extend s).has_edge u v = true ↔
      G.has_edge u v = true ∨ (u ∈ s ∧ v = G.n) ∨ (v ∈ s ∧ u = G.n) := by
  simp only [Graph.extend, Graph.has_edge, Finset.mem_union, List.mem_toFinset,
    List.mem_map, decide_eq_true_eq, Prod.mk.injEq]
  constructor
  · rintro (⟨h | ⟨a, ha, rfl, rfl⟩⟩ | ⟨h | ⟨a, ha, rfl, rfl⟩⟩)
    · exact Or.inl (Or.inl h)
    · exact Or.inr (Or.inl ⟨ha, rfl⟩)
    · exact Or.inl (Or.inr h)
    · exact Or.inr (Or.inr ⟨ha, rfl⟩)
  · rintro ((h | h) | ⟨hu, rfl⟩ | ⟨hv, rfl⟩)
    · exact Or.inl (Or.inl h)
    · exact Or.inr (Or.inl h)
    · exact Or.inl (Or.inr ⟨u, hu, rfl, rfl⟩)
    · exact Or.inr (Or.inr ⟨v, hv, rfl, rfl⟩)

theorem Graph.wf_extend {G : Graph} (hwf : G.wf) {s : List Nat}
    (hs : ∀ a ∈ s, a < G.n) : (G.extend s).wf := by
  intro e he
  rcases Finset.mem_union.1 he with h | h
  · obtain ⟨h1, h2⟩ := hwf _ h
    exact ⟨h1, h2.trans (Nat.lt_succ_self _)⟩
  · rw [List.mem_toFinset, List.mem_map] at h
    obtain ⟨a, ha, rfl⟩ := h
    exact ⟨hs a ha, Nat.lt_succ_self _⟩

theorem Graph.has_edge_restrict_imp {G : Graph} {m u v : Nat}
    (h : (G.restrict m).has_edge u v = true) : G.has_edge u v = true := by
  rw [Graph.restrict, Graph.has_edge, decide_eq_true_eq] at h
  rw [Graph.has_edge, decide_eq_true_eq]
  rcases h with h | h
  · exact Or.inl (Finset.mem_filter.1 h).1
  · exact Or.inr (Finset.mem_filter.1 h).1

theorem Graph.wf_restrict {G : Graph} (hwf : G.wf) (m : Nat) :
    (G.restrict m).wf := by
  intro e he
  obtain ⟨h1, h2⟩ := Finset.mem_filter.1 he
  exact ⟨(hwf _ h1).1, h2⟩

theorem Graph.tf_restrict {G : Graph} (htf : G.triangleFree) (m : Nat) :
    (G.restrict m).triangleFree :=
  fun _ _ _ hab hac hbc =>
    htf _ _ _ (Graph.has_edge_restrict_imp hab) (Graph.has_edge_restrict_imp hac)
      (Graph.has_edge_restrict_imp hbc)

theorem Graph.restrict_eq_self {G : Graph} (hwf : G.wf) : G.restrict G.n = G := by
  rcases G with ⟨n, E⟩
  simp only [Graph.restrict, Graph.mk.injEq, true_and]
  exact Finset.filter_true_of_mem (fun e he => (hwf e he).2)

theorem Graph.restrict_restrict (G : Graph) {m m' : Nat} (h : m ≤ m') :
    (G.restrict m').restrict m = G.restrict m := by
  simp only [Graph.restrict, Graph.mk.injEq, true_and]
  ext e
  simp only [Finset.mem_filter]
  constructor
  · rintro ⟨⟨he, -⟩, h2⟩
    exact ⟨he, h2⟩
  · rintro ⟨he, h2⟩
    exact ⟨⟨he, lt_of_lt_of_le h2 h⟩, h2⟩

theorem Graph.restrict_extend {G : Graph} (hwf : G.wf) (s : List Nat) :
    (G.extend s).restrict G.n = G := by
  rcases G with ⟨n, E⟩
  simp only [Graph.restrict, Graph.extend, Graph.mk.injEq, true_and]
  rw [Finset.filter_union]
  have h1 : E.filter (fun e => e.2 < n) = E :=
    Finset.filter_true_of_mem (fun e he => (hwf e he).2)
  have h2 : ((s.map fun u => (u, n)).toFinset).filter (fun e => e.2 < n) = ∅ := by
    rw [Finset.filter_eq_empty_iff]
    intro e he
    rw [List.mem_toFinset, List.mem_map] at he
    obtain ⟨a, -, rfl⟩ := he
    simp
  rw [h1, h2, Finset.union_empty]

/-- Connecting the new vertex to an independent set of existing vertices
cannot create a triangle (the source's invariant). -/
theorem Graph.tf_extend {G : Graph} (hwf : G.wf) (htf : G.triangleFree)
    {s : List Nat} (hs : ∀ a ∈ s, a < G.n)
    (hind : is_independent_set G s = true) : (G.extend s).triangleFree := by
  have hpair : ∀ u ∈ s, ∀ v ∈ s, u ≠ v → ¬ (G.has_edge u v = true) := by
    intro u hu v hv huv
    have hp := (is_independent_set_iff_pairwise G s).1 hind
    have := hp.forall (fun a b hab => (G.has_edge_comm b a).trans hab) hu hv huv
    rw [this]
    simp
  have key : ∀ u v, (G.extend s).has_edge u v = true → u ≠ G.n → v ≠ G.n →
      G.has_edge u v = true := by
    intro u v h hu hv
    rw [Graph.has_edge_extend] at h
    rcases h with h | ⟨-, h⟩ | ⟨-, h⟩
    · exact h
    · exact absurd h hv
    · exact absurd h hu
  have key2 : ∀ u, (G.extend s).has_edge u G.n = true → u ∈ s := by
    intro u h
    rw [Graph.has_edge_extend] at h
    rcases h with h | ⟨h1, -⟩ | ⟨h1, h2⟩
    · obtain ⟨-, h2, -⟩ := Graph.wf_has_edge hwf h
      exact absurd h2 (lt_irrefl G.n)
    · exact h1
    · exact absurd (hs _ h1) (lt_irrefl G.n)
  intro a b c hab hac hbc
  by_cases ha : a = G.n
  · subst ha
    have hb : b ∈ s := key2 b (by rw [Graph.has_edge_comm]; exact hab)
    have hc : c ∈ s := key2 c (by rw [Graph.has_edge_comm]; exact hac)
    have hbn : b ≠ G.n := Nat.ne_of_lt (hs b hb)
    have hcn : c ≠ G.n := Nat.ne_of_lt (hs c hc)
    have hedge := key b c hbc hbn hcn
    obtain ⟨-, -, hbc'⟩ := Graph.wf_has_edge hwf hedge
    exact hpair b hb c hc hbc' hedge
  · by_cases hb : b = G.n
    · subst hb
      have hA : a ∈ s := key2 a hab
      have hc : c ∈ s := key2 c (by rw [Graph.has_edge_comm]; exact hbc)
      have hcn : c ≠ G.n := Nat.ne_of_lt (hs c hc)
      have hedge := key a c hac ha hcn
      obtain ⟨-, -, hac'⟩ := Graph.wf_has_edge hwf hedge
      exact hpair a hA c hc hac' hedge
    · by_cases hc : c = G.n
      · subst hc
        have hA : a ∈ s := key2 a hac
        have hB : b ∈ s := key2 b hbc
        have hedge := key a b hab ha hb
        obtain ⟨-, -, hab'⟩ := Graph.wf_has_edge hwf hedge
        exact hpair a hA b hB hab' hedge
      · exact htf a b c (key a b hab ha hb) (key a c hac ha hc) (key b c hbc hb hc)

/-- Membership characterization of `_recursive_build`: starting from a
normalized triangle-free graph `G`, the enumerator's output after `fuel`
extensions is exactly the set of normalized triangle-free graphs on
`G.n + fuel` vertices whose restriction to the first `G.n` vertices
is `G`. -/
theorem mem_recursive_build : ∀ (fuel : Nat) (G : Graph), G.wf → G.triangleFree →
    ∀ H : Graph, (H ∈ recursive_build G fuel ↔
      (H.n = G.n + fuel ∧ H.wf ∧ H.triangleFree ∧ H.restrict G.n = G)) := by
  intro fuel
  induction fuel with
  | zero =>
    intro G hwf htf H
    simp only [recursive_build, List.mem_singleton]
    constructor
    · rintro rfl
      exact ⟨rfl, hwf, htf, Graph.restrict_eq_self hwf⟩
    · rintro ⟨hn, hwf', -, hres⟩
      have h1 : H.restrict G.n = H := by
        rw [show G.n = H.n by omega]
        exact Graph.restrict_eq_self hwf'
      rw [← hres, h1]
  | succ fuel ih =>
    intro G hwf htf H
    simp only [recursive_build, List.mem_flatMap]
    constructor
    · rintro ⟨s, hsmem, hH⟩
      obtain ⟨hsl, hsi⟩ := List.mem_filter.1 hsmem
      have hsub := List.mem_sublists.1 hsl
      have hlt : ∀ a ∈ s, a < G.n := fun a ha => List.mem_range.1 (hsub.subset ha)
      have hwf' := Graph.wf_extend hwf hlt
      have htf' := Graph.tf_extend hwf htf hlt hsi
      obtain ⟨hn, hwfH, htfH, hres⟩ := (ih (G.extend s) hwf' htf' H).1 hH
      have hne : (G.extend s).n = G.n + 1 := rfl
      rw [hne] at hn hres
      refine ⟨by omega, hwfH, htfH, ?_⟩
      calc H.restrict G.n
          = (H.restrict (G.n + 1)).restrict G.n :=
            (Graph.restrict_restrict H (Nat.le_succ G.n)).symm
        _ = (G.extend s).restrict G.n := by rw [hres]
        _ = G := Graph.restrict_extend hwf s
    · rintro ⟨hn, hwfH, htfH, hres⟩
      set F : Finset Nat := (H.edges.filter (fun e => e.2 = G.n)).image Prod.fst with hF
      have memF : ∀ u, u ∈ F ↔ (u, G.n) ∈ H.edges := by
        intro u
        rw [hF]
        simp only [Finset.mem_image, Finset.mem_filter]
        constructor
        · rintro ⟨⟨a, b⟩, ⟨hmem, h2⟩, h1⟩
          simp only at h1 h2
          rw [← h1, ← h2]
          exact hmem
        · intro h
          exact ⟨(u, G.n), ⟨h, rfl⟩, rfl⟩
      have hFlt : ∀ u ∈ F, u < G.n := by
        intro u hu
        exact (hwfH _ ((memF u).1 hu)).1
      have hGres : G = H.restrict G.n := hres.symm
      have hGedge_imp : ∀ u v, G.has_edge u v = true → H.has_edge u v = true := by
        intro u v h
        rw [hGres] at h
        exact Graph.has_edge_restrict_imp h
      have hHedge : ∀ u ∈ F, H.has_edge u G.n = true := by
        intro u hu
        rw [Graph.has_edge, decide_eq_true_eq]
        exact Or.inl ((memF u).1 hu)
      have hindF : G.indepS F := by
        intro u hu v hv huv
        cases h : G.has_edge u v with
        | false => rfl
        | true =>
          exact absurd (htfH u v G.n (hGedge_imp u v h) (hHedge u hu) (hHedge v hv))
            (fun hc => hc)
      have hslt : ∀ a ∈ F.sort (· ≤ ·), a < G.n :=
        fun a ha => hFlt a ((Finset.mem_sort _).1 ha)
      have hssub : (F.sort (· ≤ ·)).Sublist (List.range G.n) :=
        sort_sublist_of_sorted (List.pairwise_lt_range G.n)
          (fun a ha => List.mem_range.2 (hFlt a ha))
      have hsind : is_independent_set G (F.sort (· ≤ ·)) = true :=
        is_independent_set_sort G hindF
      have hsmem : F.sort (· ≤ ·) ∈ independent_subsets G :=
        List.mem_filter.2 ⟨List.mem_sublists.2 hssub, hsind⟩
      have hext : G.extend (F.sort (· ≤ ·)) = H.restrict (G.n + 1) := by
        have hGedges : G.edges = H.edges.filter (fun e => e.2 < G.n) :=
          congrArg Graph.edges hGres
        have hmap : (((F.sort (· ≤ ·)).map fun u => (u, G.n)).toFinset) =
            H.edges.filter (fun e => e.2 = G.n) := by
          ext e
          simp only [List.mem_toFinset, List.mem_map, Finset.mem_filter]
          constructor
          · rintro ⟨a, ha, rfl⟩
            exact ⟨(memF a).1 ((Finset.mem_sort _).1 ha), rfl⟩
          · rintro ⟨he, h2⟩
            refine ⟨e.1, (Finset.mem_sort _).2 ?_, ?_⟩
            · rw [memF, ← h2]
              exact he
            · rw [← h2]
        have hsplit : H.edges.filter (fun e => e.2 < G.n + 1) =
            H.edges.filter (fun e => e.2 < G.n) ∪
              H.edges.filter (fun e => e.2 = G.n) := by
          ext e
          simp only [Finset.mem_filter, Finset.mem_union]
          constructor
          · rintro ⟨he, hlt2⟩
            rcases Nat.lt_succ_iff_lt_or_eq.1 hlt2 with h | h
            · exact Or.inl ⟨he, h⟩
            · exact Or.inr ⟨he, h⟩
          · rintro (⟨he, h⟩ | ⟨he, h⟩)
            · exact ⟨he, h.trans (Nat.lt_succ_self _)⟩
            · exact ⟨he, by rw [h]; exact Nat.lt_succ_self _⟩
        simp only [Graph.extend, Graph.restrict, Graph.mk.injEq, true_and]
        rw [hGedges, hmap, hsplit]
      refine ⟨F.sort (· ≤ ·), hsmem,
        (ih (G.extend (F.sort (· ≤ ·))) (Graph.wf_extend hwf hslt)
          (Graph.tf_extend hwf htf hslt hsind) H).2 ⟨?_, hwfH, htfH, ?_⟩⟩
      · show H.n = G.n + 1 + fuel
        omega
      · show H.restrict (G.n + 1) = G.extend (F.sort (· ≤ ·))
        rw [hext]

/-- The enumerator never yields the same labeled graph twice: different
neighbor subsets for the new vertex give different graphs, and the
extension subsets are enumerated without repetition. -/
theorem nodup_recursive_build : ∀ (fuel : Nat) (G : Graph), G.wf → G.triangleFree →
    (recursive_build G fuel).Nodup := by
  intro fuel
  induction fuel with
  | zero =>
    intro G _ _
    simp [recursive_build]
  | succ fuel ih =>
    intro G hwf htf
    simp only [recursive_build]
    rw [List.nodup_flatMap]
    have hfacts : ∀ s ∈ independent_subsets G,
        (∀ a ∈ s, a < G.n) ∧ is_independent_set G s = true ∧
          s.Sublist (List.range G.n) := by
      intro s hs
      obtain ⟨hsl, hsi⟩ := List.mem_filter.1 hs
      have hsub := List.mem_sublists.1 hsl
      exact ⟨fun a ha => List.mem_range.1 (hsub.subset ha), hsi, hsub⟩
    constructor
    · intro s hs
      obtain ⟨hlt, hsi, -⟩ := hfacts s hs
      exact ih _ (Graph.wf_extend hwf hlt) (Graph.tf_extend hwf htf hlt hsi)
    · have hnd : (independent_subsets G).Nodup :=
        List.Nodup.filter _ (List.nodup_sublists.2 (List.nodup_range G.n))
      refine hnd.imp_of_mem ?_
      intro s s' hsmem hs'mem hne
      simp only [Function.onFun]
      intro H hH hH'
      obtain ⟨hlt, hsi, hsub⟩ := hfacts s hsmem
      obtain ⟨hlt', hsi', hsub'⟩ := hfacts s' hs'mem
      obtain ⟨-, -, -, hres⟩ := (mem_recursive_build fuel (G.extend s)
        (Graph.wf_extend hwf hlt) (Graph.tf_extend hwf htf hlt hsi) H).1 hH
      obtain ⟨-, -, -, hres'⟩ := (mem_recursive_build fuel (G.extend s')
        (Graph.wf_extend hwf hlt') (Graph.tf_extend hwf htf hlt' hsi') H).1 hH'
      have h1 : H.restrict (G.n + 1) = G.extend s := hres
      have h2 : H.restrict (G.n + 1) = G.extend s' := hres'
      have hee : G.extend s = G.extend s' := h1.symm.trans h2
      apply hne
      have hedges := congrArg Graph.edges hee
      have key : ∀ (t : List Nat), (∀ a ∈ t, a < G.n) →
          ∀ u, (u ∈ t ↔ (u, G.n) ∈ (G.extend t).edges) := by
        intro t hlt2 u
        simp only [Graph.extend, Finset.mem_union, List.mem_toFinset, List.mem_map]
        constructor
        · intro hu
          exact Or.inr ⟨u, hu, rfl⟩
        · rintro (h | ⟨a, ha, hEq⟩)
          · exact absurd (hwf _ h).2 (lt_irrefl G.n)
          · rw [Prod.mk.injEq] at hEq
            rw [← hEq.1]
            exact ha
      have hmem_iff : ∀ u, u ∈ s ↔ u ∈ s' := by
        intro u
        rw [key s hlt u, key s' hlt' u, hedges]
      have hsort : List.Pairwise (· < ·) s :=
        List.Pairwise.sublist hsub (List.pairwise_lt_range G.n)
      have hsort' : List.Pairwise (· < ·) s' :=
        List.Pairwise.sublist hsub' (List.pairwise_lt_range G.n)
      exact List.Sublist.antisymm
        (sorted_subset_sublist s' s hsort hsort' (fun a ha => (hmem_iff a).1 ha))
        (sorted_subset_sublist s s' hsort' hsort (fun a ha => (hmem_iff a).2 ha))

/-- C3: for every target order `N ≥ 1`,
`generate_triangle_free_graphs(N)` yields exactly the labeled
triangle-free simple graphs on vertex set `{0, …, N-1}` — every yielded
graph has order `N`, normalized edges and no triangle; every such graph
is yielded; and no graph is yielded twice. -/
theorem claim_C3 (N : Nat) (hN : 1 ≤ N) :
    (∀ H ∈ generate_triangle_free_graphs N, H.n = N ∧ H.wf ∧ H.triangleFree) ∧
    (∀ H : Graph, H.n = N → H.wf → H.triangleFree →
      H ∈ generate_triangle_free_graphs N) ∧
    (generate_triangle_free_graphs N).Nodup := by
  have hwf0 : (Graph.mk 1 ∅).wf := fun e he => absurd he (Finset.not_mem_empty e)
  have htf0 : (Graph.mk 1 ∅).triangleFree := by
    intro a b c hab
    rw [Graph.has_edge, decide_eq_true_eq] at hab
    rcases hab with h | h <;> exact absurd h (Finset.not_mem_empty _)
  unfold generate_triangle_free_graphs
  rw [if_neg (by omega : ¬ N = 0)]
  have hmem := mem_recursive_build (N - 1) ⟨1, ∅⟩ hwf0 htf0
  refine ⟨?_, ?_, nodup_recursive_build (N - 1) ⟨1, ∅⟩ hwf0 htf0⟩
  · intro H hH
    obtain ⟨hn, hwf, htf, -⟩ := (hmem H).1 hH
    have hn1 : (Graph.mk 1 ∅).n = 1 := rfl
    rw [hn1] at hn
    exact ⟨by omega, hwf, htf⟩
  · intro H hn hwf htf
    refine (hmem H).2 ⟨by show H.n = 1 + (N - 1); omega, hwf, htf, ?_⟩
    show H.restrict 1 = ⟨1, ∅⟩
    simp only [Graph.restrict, Graph.mk.injEq, true_and]
    rw [Finset.filter_eq_empty_iff]
    intro e he
    obtain ⟨h1, -⟩ := hwf e he
    omega

theorem claim_C3_witness :
    1 ≤ 1 ∧
      ((∀ H ∈ generate_triangle_free_graphs 1, H.n = 1 ∧ H.wf ∧ H.triangleFree) ∧
       (∀ H : Graph, H.n = 1 → H.wf → H.triangleFree →
         H ∈ generate_triangle_free_graphs 1) ∧
       (generate_triangle_free_graphs 1).Nodup) :=
  ⟨Nat.le_refl 1, claim_C3 1 (Nat.le_refl 1)⟩
